import Mathlib

/-!
A Lean 4 shallow embedding of the data-engineering pipeline in
`01_materials/labs/02_data_engineering.ipynb`: the bronze price-partition
ingestion loop, the partition key-to-path mapping, the glob-based parquet
read, and the silver feature computation (lagged close and returns),
together with theorems checking the specification's claims about them.

Conventions: machine floats are modelled as rationals, with an explicit
`PVal` type carrying the IEEE special values (NaN, signed infinity) where
the code can actually produce them; calendar dates are (year, day) pairs;
dataframes are lists of row structures, and pandas/dask operations on
them are translated operation by operation.
-/

namespace Production

/-- A calendar date, modelled as a (year, day-of-year) pair ordered
lexicographically.  Only the year component is inspected by the pipeline
(`ticker_dt.Date.dt.year`); the day component keeps distinct trading days
of one year distinct. -/
structure PDate where
  year : Nat
  day : Nat
deriving DecidableEq, Repr

/-- Lexicographic strict order on dates. -/
def PDate.ltb (a b : PDate) : Bool :=
  a.year < b.year || (a.year == b.year && a.day < b.day)

/-- Lexicographic non-strict order on dates. -/
def PDate.leb (a b : PDate) : Bool :=
  a.year < b.year || (a.year == b.year && a.day ≤ b.day)

/-- One row of the normalized price table `tech_dt`: one stock on one
trading day.  The OHLC/volume columns other than `Close` are carried
verbatim by every operation of the pipeline and are elided; `close` is
the only price column the pipeline computes with.  Prices are rationals;
the NaN cells that `yf.download` produces for unrecognized tickers are
modelled in the fetch-normalization layer (`WideFrame` / `NRow`). -/
structure PriceRow where
  ticker : String
  date : PDate
  close : ℚ
deriving DecidableEq, Repr

/-- `pandas.Series.unique()`: the distinct values of a column, keeping
the first occurrence of each value, in order of appearance. -/
def uniques {α : Type} [DecidableEq α] : List α → List α
  | [] => []
  | x :: xs => x :: (uniques xs).filter (fun y => y ≠ x)

/-- A pandas float64 value: an ordinary number, NaN, or a signed
infinity (`inf true` is `+inf`).  NaN is how pandas represents the
"null" of the specification in a float column. -/
inductive PVal where
  | nan : PVal
  | num (q : ℚ) : PVal
  | inf (pos : Bool) : PVal
deriving DecidableEq, Repr

/-- IEEE-754 division as numpy performs it on float64 columns:
anything over NaN (or NaN over anything) is NaN, a nonzero number over
zero is a signed infinity, zero over zero is NaN. -/
def pdiv : PVal → PVal → PVal
  | PVal.nan, _ => PVal.nan
  | _, PVal.nan => PVal.nan
  | PVal.num a, PVal.num b =>
      if b = 0 then (if a = 0 then PVal.nan else PVal.inf (decide (0 < a)))
      else PVal.num (a / b)
  | PVal.num _, PVal.inf _ => PVal.num 0
  | PVal.inf s, PVal.num b => if b < 0 then PVal.inf (!s) else PVal.inf s
  | PVal.inf _, PVal.inf _ => PVal.nan

/-- IEEE-754 subtraction of the constant 1, as numpy performs it. -/
def psub1 : PVal → PVal
  | PVal.nan => PVal.nan
  | PVal.num a => PVal.num (a - 1)
  | PVal.inf s => PVal.inf s

/-- A bronze row with the `Close_lag_1` column added by
`x.assign(Close_lag_1 = x['Close'].shift(1))`; `none` is the NaN that
`shift(1)` puts on a group's first row. -/
structure LagRow where
  ticker : String
  date : PDate
  close : ℚ
  close_lag_1 : Option ℚ
deriving DecidableEq, Repr

/-- A silver row: a `LagRow` with the `Returns` column added by
`assign(Returns = lambda x: x['Close']/x['Close_lag_1'] - 1)`. -/
structure FeatureRow where
  ticker : String
  date : PDate
  close : ℚ
  close_lag_1 : Option ℚ
  returns : PVal
deriving DecidableEq, Repr

/-- `x.assign(Close_lag_1 = x['Close'].shift(1))` on one ticker group:
every row receives the previous row's close; the group's first row
receives NaN (`none`).  `prev` is the close of the row immediately
before the current suffix (`none` at the start of the group). -/
def shiftAssign (prev : Option ℚ) : List PriceRow → List LagRow
  | [] => []
  | r :: rs =>
      ⟨r.ticker, r.date, r.close, prev⟩ :: shiftAssign (some r.close) rs

/-- Cell `dd_shift`: `dd_px.groupby('Ticker', group_keys=False).apply(
lambda x: x.assign(Close_lag_1 = x['Close'].shift(1)))` — the rows are
grouped by ticker and each group gets the shifted-close column. -/
def dd_shift (rows : List PriceRow) : List LagRow :=
  (uniques (rows.map (fun r => r.ticker))).flatMap
    (fun t => shiftAssign none (rows.filter (fun r => r.ticker = t)))

/-- The NaN-aware view of the `Close_lag_1` float column. -/
def lagVal : Option ℚ → PVal
  | none => PVal.nan
  | some q => PVal.num q

/-- Cell `dd_rets`: `dd_shift.assign(Returns = lambda x:
x['Close']/x['Close_lag_1'] - 1)` — the division is performed
unconditionally, under float64 semantics. -/
def dd_rets (rows : List LagRow) : List FeatureRow :=
  rows.map (fun r =>
    ⟨r.ticker, r.date, r.close, r.close_lag_1,
      psub1 (pdiv (PVal.num r.close) (lagVal r.close_lag_1))⟩)

/-- The feature computation of the notebook, end to end on a bronze row
collection: add the lag column per ticker group, then the returns
column. -/
def featurize (rows : List PriceRow) : List FeatureRow :=
  dd_rets (dd_shift rows)

theorem shiftAssign_length (prev : Option ℚ) (s : List PriceRow) :
    (shiftAssign prev s).length = s.length := by
  induction s generalizing prev with
  | nil => rfl
  | cons r rs ih => simp [shiftAssign, ih]

theorem shiftAssign_head_lag (prev : Option ℚ) (s : List PriceRow)
    (h : 0 < (shiftAssign prev s).length) :
    (List.get (shiftAssign prev s) ⟨0, h⟩).close_lag_1 = prev := by
  cases s with
  | nil => simp [shiftAssign] at h
  | cons r rs => rfl

theorem shiftAssign_lag (prev : Option ℚ) (s : List PriceRow) (i : Nat)
    (hi : i + 1 < s.length) :
    (List.get (shiftAssign prev s)
        ⟨i + 1, by rw [shiftAssign_length]; exact hi⟩).close_lag_1
      = some (List.get s ⟨i, Nat.lt_of_succ_lt hi⟩).close := by
  induction s generalizing prev i with
  | nil => simp at hi
  | cons r rs ih =>
    cases i with
    | zero =>
      have h0 : 0 < (shiftAssign (some r.close) rs).length := by
        rw [shiftAssign_length]
        simpa using Nat.lt_of_succ_lt_succ hi
      simpa [shiftAssign] using shiftAssign_head_lag (some r.close) rs h0
    | succ j =>
      have hj : j + 1 < rs.length := Nat.lt_of_succ_lt_succ hi
      simpa [shiftAssign] using ih (some r.close) j hj

/-- The synthetic three-day series of the specification's lag-correctness
test: one symbol, closes 10, 20, 30 on three consecutive dates. -/
def synthRows : List PriceRow :=
  [⟨"SYN", ⟨2024, 1⟩, 10⟩, ⟨"SYN", ⟨2024, 2⟩, 20⟩, ⟨"SYN", ⟨2024, 3⟩, 30⟩]

/-- C2: within each ticker group (ordered by date ascending, as the rows
are), `Close_lag_1` of every row equals the previous row's close and the
first row's lag is NaN/null; on the synthetic closes [10, 20, 30] the
featurized output has `close_lag_1` = [null, 10, 20] and `returns` =
[null, 1, 1/2]. -/
theorem C2_featurize_lag_correct :
    (∀ (s : List PriceRow) (i : Nat) (hi : i + 1 < s.length),
        (List.get (shiftAssign none s)
            ⟨i + 1, by rw [shiftAssign_length]; exact hi⟩).close_lag_1
          = some (List.get s ⟨i, Nat.lt_of_succ_lt hi⟩).close)
    ∧ (∀ (s : List PriceRow) (h : 0 < (shiftAssign none s).length),
        (List.get (shiftAssign none s) ⟨0, h⟩).close_lag_1 = none)
    ∧ featurize synthRows =
        [⟨"SYN", ⟨2024, 1⟩, 10, none, PVal.nan⟩,
         ⟨"SYN", ⟨2024, 2⟩, 20, some 10, PVal.num 1⟩,
         ⟨"SYN", ⟨2024, 3⟩, 30, some 20, PVal.num (1/2)⟩] := by
  refine ⟨fun s i hi => shiftAssign_lag none s i hi,
    fun s h => shiftAssign_head_lag none s h, ?_⟩
  norm_num [featurize, dd_rets, dd_shift, uniques, synthRows, shiftAssign,
    lagVal, pdiv, psub1]

/-- Witness for C2 at the synthetic series: the second row's lag is the
first row's close, 10. -/
theorem C2_featurize_lag_correct_witness :
    (0 : Nat) + 1 < synthRows.length ∧
      (List.get (shiftAssign none synthRows)
          ⟨0 + 1, by decide⟩).close_lag_1
        = some (List.get synthRows ⟨0, by decide⟩).close :=
  ⟨by decide, C2_featurize_lag_correct.1 synthRows 0 (by decide)⟩

/-- The two-day series refuting the guarded-division claim: the first
close is 0, so the second row's `Close_lag_1` is 0. -/
def zeroLagRows : List PriceRow :=
  [⟨"Z", ⟨2024, 1⟩, 0⟩, ⟨"Z", ⟨2024, 2⟩, 10⟩]

/-- C3 counterexample: on the series with closes [0, 10], the second
featurized row has `close_lag_1 = 0` yet its `returns` is `+inf`, not
NaN/null — the division `Close/Close_lag_1` is performed on the zero
lag. -/
theorem C3_counterexample :
    (List.get (featurize zeroLagRows) ⟨1, by decide⟩).close_lag_1 = some 0
    ∧ (List.get (featurize zeroLagRows) ⟨1, by decide⟩).returns
        = PVal.inf true
    ∧ PVal.inf true ≠ PVal.nan := by
  decide

/-- C3 as amended: for every featurized row, `returns` is exactly
`Close/Close_lag_1 - 1` under float64 semantics — `returns` is NaN when
the lag is null, equals `close/lag - 1` when the lag is non-null and
nonzero, and when the lag is zero the division IS performed: the result
is a signed infinity for a nonzero close (NaN only for a zero close),
never the null the specification prescribes. -/
theorem returnsVal_cases (c : ℚ) (lag : Option ℚ) :
    (lag = none → psub1 (pdiv (PVal.num c) (lagVal lag)) = PVal.nan)
    ∧ (∀ l : ℚ, lag = some l → l ≠ 0 →
        psub1 (pdiv (PVal.num c) (lagVal lag)) = PVal.num (c / l - 1))
    ∧ (lag = some 0 → c ≠ 0 →
        psub1 (pdiv (PVal.num c) (lagVal lag)) = PVal.inf (decide (0 < c))) := by
  refine ⟨?_, ?_, ?_⟩
  · rintro rfl
    rfl
  · rintro l rfl hne
    simp [lagVal, pdiv, psub1, hne]
  · rintro rfl hc
    simp [lagVal, pdiv, psub1, hc]

theorem C3_returns_division_semantics (rows : List LagRow)
    (fr : FeatureRow) (hfr : fr ∈ dd_rets rows) :
    fr.returns = psub1 (pdiv (PVal.num fr.close) (lagVal fr.close_lag_1))
    ∧ (fr.close_lag_1 = none → fr.returns = PVal.nan)
    ∧ (∀ l : ℚ, fr.close_lag_1 = some l → l ≠ 0 →
        fr.returns = PVal.num (fr.close / l - 1))
    ∧ (fr.close_lag_1 = some 0 → fr.close ≠ 0 →
        fr.returns = PVal.inf (decide (0 < fr.close))) := by
  rcases List.mem_map.mp hfr with ⟨r, _, rfl⟩
  exact ⟨rfl, (returnsVal_cases r.close r.close_lag_1).1,
    (returnsVal_cases r.close r.close_lag_1).2.1,
    (returnsVal_cases r.close r.close_lag_1).2.2⟩

/-- Witness for the amended C3 at the zero-lag series: the second row of
`dd_rets (dd_shift zeroLagRows)` has returns `+inf` as the theorem
prescribes for a zero lag and positive close. -/
theorem C3_returns_division_semantics_witness :
    (⟨"Z", ⟨2024, 2⟩, 10, some 0, PVal.inf true⟩ : FeatureRow)
        ∈ dd_rets (dd_shift zeroLagRows)
    ∧ (⟨"Z", ⟨2024, 2⟩, 10, some 0, PVal.inf true⟩ : FeatureRow).returns
        = PVal.inf (decide ((0 : ℚ) < 10)) := by
  refine ⟨by decide, ?_⟩
  exact (C3_returns_division_semantics (dd_shift zeroLagRows) _
    (by decide)).2.2.2 rfl (by decide)

/-! ## Bronze ingestion: the partition-writing loop, the cleanup cell,
and the single full-range `yf.download` fetch. -/

/-- A bronze partition key: (ticker, year). -/
abbrev PKey := String × Nat

/-- The bronze store under `PRICE_DATA`, as an association list from
partition key to the partition's row content, in creation order. -/
abbrev BronzeStore := List (PKey × List PriceRow)

/-- The bronze ingestion loop (`for ticker in tech_dt['Ticker'].unique()`):
for each distinct ticker, filter that ticker's rows, derive the `Year`
column from the date, and for each distinct year write that year's rows
as the partition keyed (ticker, year). -/
def writeBronze (tech_dt : List PriceRow) : BronzeStore :=
  (uniques (tech_dt.map (fun r => r.ticker))).flatMap (fun ticker =>
    let ticker_dt := tech_dt.filter (fun r => r.ticker = ticker)
    (uniques (ticker_dt.map (fun r => r.date.year))).map (fun yr =>
      ((ticker, yr), ticker_dt.filter (fun r => r.date.year = yr))))

/-- C10: every row a bronze partition keyed (ticker, year) receives has
that ticker and a date falling in that year, because the loop filters by
ticker equality and then by extracted year before each write. -/
theorem C10_partition_content_invariant (tech_dt : List PriceRow)
    (k : PKey) (rows : List PriceRow) (hk : (k, rows) ∈ writeBronze tech_dt)
    (r : PriceRow) (hr : r ∈ rows) :
    r.ticker = k.1 ∧ r.date.year = k.2 := by
  rcases List.mem_flatMap.mp hk with ⟨t, _, hmem⟩
  rcases List.mem_map.mp hmem with ⟨y, _, heq⟩
  obtain ⟨hk1, hrows⟩ : (t, y) = k ∧
      (tech_dt.filter (fun r => r.ticker = t)).filter
        (fun r => r.date.year = y) = rows := by
    exact ⟨congrArg Prod.fst heq, congrArg Prod.snd heq⟩
  subst hk1
  subst hrows
  rcases List.mem_filter.mp hr with ⟨hr1, hy⟩
  rcases List.mem_filter.mp hr1 with ⟨_, ht⟩
  exact ⟨of_decide_eq_true ht, of_decide_eq_true hy⟩

/-- Witness for C10: in the store written from the synthetic rows, the
partition ("SYN", 2024) holds the first synthetic row, whose ticker and
year match the key. -/
theorem C10_partition_content_invariant_witness :
    (⟨"SYN", ⟨2024, 1⟩, 10⟩ : PriceRow).ticker = (("SYN", 2024) : PKey).1
    ∧ (⟨"SYN", ⟨2024, 1⟩, 10⟩ : PriceRow).date.year
        = (("SYN", 2024) : PKey).2 :=
  C10_partition_content_invariant synthRows ("SYN", 2024) synthRows
    (by decide) ⟨"SYN", ⟨2024, 1⟩, 10⟩ (by decide)

/-- The ingestion window passed to the single call
`yf.download(tech_tickers, start, end)`; the year of `end` is the
current (always incomplete) period. -/
structure IngestConfig where
  startYear : Nat
  endYear : Nat
deriving DecidableEq, Repr

/-- The calendar years covered by the one network fetch the run issues:
every year of the configured window, computed from the window alone —
the fetch does not consult the on-disk store. -/
def fetchedYears (cfg : IngestConfig) : List Nat :=
  List.range' cfg.startYear (cfg.endYear - cfg.startYear + 1)

/-- The cleanup cell `if os.path.exists(PRICE_DATA):
shutil.rmtree(PRICE_DATA)`: whatever store existed is removed. -/
def rmtreePriceData (prior : BronzeStore) : BronzeStore :=
  match prior with
  | _ => []

/-- The outcome of one ingestion run: the resulting bronze store and
the list of calendar years the network fetch covered. -/
structure RunResult where
  store : BronzeStore
  fetched : List Nat
deriving DecidableEq, Repr

/-- One notebook ingestion run over a prior on-disk store: the cleanup
cell deletes the prior store wholesale, `yf.download` fetches the full
configured window into the table `data`, and the loop rewrites every
partition from it. -/
def runIngest (cfg : IngestConfig) (data : List PriceRow)
    (prior : BronzeStore) : RunResult :=
  { store := rmtreePriceData prior ++ writeBronze data,
    fetched := fetchedYears cfg }

/-- The skip-stale / idempotence property claimed of the ingestion run,
stated over a configuration and fetched table: whenever the prior store
already materializes every historical (non-current) year of every
symbol, a run fetches only the current year and leaves each historical
partition in place unchanged. -/
def SkipStaleIdempotent (cfg : IngestConfig) (data : List PriceRow) : Prop :=
  ∀ prior : BronzeStore,
    (∀ t ∈ uniques (data.map (fun r => r.ticker)),
      ∀ y, cfg.startYear ≤ y → y < cfg.endYear →
        (t, y) ∈ prior.map Prod.fst) →
    (runIngest cfg data prior).fetched = [cfg.endYear]
    ∧ ∀ t y rows, y ≠ cfg.endYear → ((t, y), rows) ∈ prior →
        ((t, y), rows) ∈ (runIngest cfg data prior).store

/-- One ticker, one row per year 2020–2024: a fetched table whose
historical years are all materialized by `writeBronze c1data`. -/
def c1data : List PriceRow :=
  [⟨"T", ⟨2020, 1⟩, 1⟩, ⟨"T", ⟨2021, 1⟩, 2⟩, ⟨"T", ⟨2022, 1⟩, 3⟩,
   ⟨"T", ⟨2023, 1⟩, 4⟩, ⟨"T", ⟨2024, 1⟩, 5⟩]

/-- C1 counterexample: with the window 2020–2024 and a prior store that
already materializes every year 2020–2023 (indeed all years), the run
still fetches 2020–2024 — the network fetch is the full window, not
just the current period, and the cleanup cell deletes every historical
partition first. -/
theorem C1_counterexample :
    ¬ SkipStaleIdempotent ⟨2020, 2024⟩ c1data := by
  intro h
  exact absurd (h (writeBronze c1data) (by decide)).1 (by decide)

/-- C1 as amended: the run's outcome is independent of the prior store
(the cleanup deletes it and every partition is rebuilt from the fetched
table), so an immediate second run yields a byte-identical store; but
each run fetches every year of the configured window, not only the
current period. -/
theorem C1_full_refetch_rerun_identical (cfg : IngestConfig)
    (data : List PriceRow) (prior prior2 : BronzeStore) :
    runIngest cfg data prior = runIngest cfg data prior2
    ∧ (runIngest cfg data (runIngest cfg data prior).store).store
        = (runIngest cfg data prior).store
    ∧ (runIngest cfg data prior).fetched = fetchedYears cfg :=
  ⟨rfl, rfl, rfl⟩

/-! ## C4, C5: the physical write steps of `to_parquet`, for the bronze
partitions and for the silver dataset. -/

/-- `dd.from_pandas(df, 2)`: the rows split into two contiguous chunks,
which become the part files `to_parquet` writes. -/
def twoChunks (rows : List PriceRow) : List (List PriceRow) :=
  [rows.take ((rows.length + 1) / 2), rows.drop ((rows.length + 1) / 2)]

/-- The content of the partition directory `yr_path` once the first `k`
part files of `yr_dd.to_parquet(yr_path)` have been written: the files
are placed directly at the final location as they are produced — there
is no temporary location and no concluding swap. -/
def toParquetWritten (parts : List (List PriceRow)) (k : Nat) :
    List (List PriceRow) :=
  parts.take k

/-- A bronze store at file granularity: each key maps to the part files
currently inside its partition directory. -/
abbrev DirStore := List (PKey × List (List PriceRow))

/-- Partition enumeration as the pipeline performs it: the recursive
glob `**/*.parquet` reports exactly the keys whose directory holds at
least one part file. -/
def listPartitions (store : DirStore) : List PKey :=
  (store.filter (fun e => ¬ e.2.isEmpty)).map Prod.fst

/-- C4 counterexample: a two-file partition write interrupted after its
first file already makes the key visible to `list_partitions` — with
one file of two written (the write is interrupted strictly before
completion), the glob reports the partition as present, where the claim
requires it absent until a final swap. -/
theorem C4_counterexample :
    1 < (twoChunks [⟨"T", ⟨2020, 1⟩, 1⟩, ⟨"T", ⟨2020, 2⟩, 2⟩]).length
    ∧ (("T", 2020) : PKey) ∈ listPartitions
        [(("T", 2020),
          toParquetWritten
            (twoChunks [⟨"T", ⟨2020, 1⟩, 1⟩, ⟨"T", ⟨2020, 2⟩, 2⟩]) 1)] := by
  decide

/-- C4 as amended: `to_parquet` writes part files directly into the
final partition directory, so after `k ≥ 1` of the files the partition
is already reported by `list_partitions` with exactly the first `k`
part files, and only the completed write holds all of them. -/
theorem C4_direct_write_visible (store : DirStore) (key : PKey)
    (parts : List (List PriceRow)) (k : Nat) (h1 : 1 ≤ k)
    (h2 : k ≤ parts.length) :
    key ∈ listPartitions (store ++ [(key, toParquetWritten parts k)])
    ∧ toParquetWritten parts k = parts.take k
    ∧ toParquetWritten parts parts.length = parts := by
  refine ⟨?_, rfl, by simp [toParquetWritten]⟩
  have hparts : parts ≠ [] := by
    intro hp
    rw [hp] at h2
    simp at h2
    omega
  simp [listPartitions, List.filter_append, List.map_append,
    toParquetWritten]
  refine Or.inr ⟨?_, hparts⟩
  omega

/-- Witness for the amended C4: the half-written two-file partition of
the counterexample state is listed with its single part file. -/
theorem C4_direct_write_visible_witness :
    1 ≤ 1 ∧ 1 ≤ (twoChunks [⟨"T", ⟨2020, 1⟩, 1⟩, ⟨"T", ⟨2020, 2⟩, 2⟩]).length
    ∧ ((("T", 2020) : PKey) ∈ listPartitions
        ([] ++ [(("T", 2020),
          toParquetWritten
            (twoChunks [⟨"T", ⟨2020, 1⟩, 1⟩, ⟨"T", ⟨2020, 2⟩, 2⟩]) 1)])
      ∧ toParquetWritten
            (twoChunks [⟨"T", ⟨2020, 1⟩, 1⟩, ⟨"T", ⟨2020, 2⟩, 2⟩]) 1
          = (twoChunks [⟨"T", ⟨2020, 1⟩, 1⟩, ⟨"T", ⟨2020, 2⟩, 2⟩]).take 1
      ∧ toParquetWritten
            (twoChunks [⟨"T", ⟨2020, 1⟩, 1⟩, ⟨"T", ⟨2020, 2⟩, 2⟩])
            (twoChunks [⟨"T", ⟨2020, 1⟩, 1⟩, ⟨"T", ⟨2020, 2⟩, 2⟩]).length
          = twoChunks [⟨"T", ⟨2020, 1⟩, 1⟩, ⟨"T", ⟨2020, 2⟩, 2⟩]) :=
  ⟨Nat.le_refl 1, by decide,
    C4_direct_write_visible [] ("T", 2020)
      (twoChunks [⟨"T", ⟨2020, 1⟩, 1⟩, ⟨"T", ⟨2020, 2⟩, 2⟩]) 1
      (Nat.le_refl 1) (by decide)⟩

/-- The silver dataset location `FEATURES_DATA`: `none` when the
directory does not exist, otherwise the part files present. -/
abbrev SilverState := Option (List (List FeatureRow))

/-- The notebook's silver save, `shutil.rmtree(FEATURES_DATA)` followed
by `dd_rets.to_parquet(FEATURES_DATA, overwrite=True)`, as its sequence
of filesystem states: state 0 is the starting state, state 1 is the
completed rmtree (dataset gone), state 1+k has the first k part files
of the new dataset written in place. -/
def silverSaveState (old : SilverState) (parts : List (List FeatureRow)) :
    Nat → SilverState
  | 0 => old
  | k + 1 => some (parts.take k)

/-- C5 counterexample: interrupting the silver replacement right after
the rmtree (mid-replace: step 1 of a run needing 2 further file writes)
leaves the empty fresh dataset visible, not the old silver dataset —
the old dataset is destroyed before the new one is written, so no
temp-then-swap protects it. -/
theorem C5_counterexample :
    silverSaveState (some [[⟨"S", ⟨2020, 1⟩, 3, none, PVal.nan⟩]])
        [[⟨"S", ⟨2021, 1⟩, 4, none, PVal.nan⟩]] 1
      ≠ some [[⟨"S", ⟨2020, 1⟩, 3, none, PVal.nan⟩]] := by
  decide

/-- C5 as amended: the silver replacement is not atomic — the old
dataset is visible only before the delete step; every later state shows
the partial new dataset, and the completed run shows exactly the new
dataset. -/
theorem C5_silver_replace_not_atomic (old : SilverState)
    (parts : List (List FeatureRow)) :
    silverSaveState old parts 0 = old
    ∧ (∀ k : Nat, silverSaveState old parts (k + 1) = some (parts.take k))
    ∧ silverSaveState old parts (parts.length + 1) = some parts :=
  ⟨rfl, fun _ => rfl, by simp [silverSaveState]⟩

/-! ## C6: the glob-based read of all bronze partitions, and the
round-trip of written content. -/

/-- A string as its code-point sequence: python compares strings by
code point, and this is the order used below. -/
def natsOf (s : String) : List Nat := s.data.map Char.toNat

/-- Row comparison by ticker only: the order `set_index("Ticker")`
establishes. -/
def tickerLE (a b : PriceRow) : Prop := natsOf a.ticker ≤ natsOf b.ticker

instance : DecidableRel tickerLE := fun a b =>
  inferInstanceAs (Decidable (natsOf a.ticker ≤ natsOf b.ticker))

instance : IsTotal PriceRow tickerLE :=
  ⟨fun a b => le_total (natsOf a.ticker) (natsOf b.ticker)⟩

instance : IsTrans PriceRow tickerLE := ⟨fun _ _ _ h1 h2 => le_trans h1 h2⟩

/-- Row comparison by (ticker, date): the order the specification says
`read_all` establishes. -/
def byTickerDate (a b : PriceRow) : Prop :=
  natsOf a.ticker < natsOf b.ticker
    ∨ (a.ticker = b.ticker ∧ a.date.leb b.date = true)

instance : DecidableRel byTickerDate := fun a b =>
  inferInstanceAs (Decidable (natsOf a.ticker < natsOf b.ticker
    ∨ (a.ticker = b.ticker ∧ a.date.leb b.date = true)))

/-- The read cells: `glob(os.path.join(PRICE_DATA, "**/*.parquet"),
recursive=True)` enumerates the partition files in an order the
operating system chooses (Python's glob does not sort it),
`dd.read_parquet(parquet_files)` concatenates the partitions in that
order, and `.set_index("Ticker")` arranges the rows by ticker (modelled
as a stable sort on the ticker alone; no date ordering is applied
anywhere in the read).  `enum` is the store's partitions in the
enumeration order glob produced. -/
def readAll (enum : BronzeStore) : List PriceRow :=
  List.insertionSort tickerLE ((enum.map Prod.snd).flatten)

theorem uniques_mem {α : Type} [DecidableEq α] (l : List α) (a : α) :
    a ∈ uniques l ↔ a ∈ l := by
  induction l with
  | nil => simp [uniques]
  | cons x xs ih =>
    by_cases hax : a = x
    · subst hax
      simp [uniques]
    · simp [uniques, List.mem_filter, hax, ih]

theorem uniques_nodup {α : Type} [DecidableEq α] (l : List α) :
    (uniques l).Nodup := by
  induction l with
  | nil => exact List.Pairwise.nil
  | cons x xs ih =>
    rw [uniques, List.nodup_cons]
    constructor
    · simp [List.mem_filter]
    · exact ih.filter _

theorem count_flatMap_eq {α β : Type} [DecidableEq α] (ks : List β)
    (f : β → List α) (a : α) :
    ((ks.flatMap f).count a) = (ks.map (fun k => (f k).count a)).sum := by
  induction ks with
  | nil => rfl
  | cons k ks ih => simp [List.flatMap_cons, List.count_append, ih]

theorem count_filter_key {α β : Type} [DecidableEq α] [DecidableEq β]
    (l : List α) (key : α → β) (k : β) (a : α) :
    ((l.filter (fun x => key x = k)).count a)
      = if key a = k then l.count a else 0 := by
  induction l with
  | nil => simp
  | cons x xs ih =>
    by_cases hx : key x = k
    · by_cases hxa : x = a
      · subst hxa
        simp [List.filter_cons, hx, List.count_cons, ih]
      · simp [List.filter_cons, hx, List.count_cons, hxa, ih]
    · by_cases hxa : x = a
      · subst hxa
        simp [List.filter_cons, hx, List.count_cons, ih]
      · simp [List.filter_cons, hx, List.count_cons, hxa, ih]

theorem sum_map_ite_zero {β : Type} [DecidableEq β] (ks : List β) (b : β)
    (c : Nat) (hb : b ∉ ks) :
    (ks.map (fun k => if b = k then c else 0)).sum = 0 := by
  induction ks with
  | nil => rfl
  | cons k ks ih =>
    simp only [List.mem_cons, not_or] at hb
    simp [hb.1, ih hb.2]

theorem sum_map_ite_single {β : Type} [DecidableEq β] (ks : List β) (b : β)
    (c : Nat) (hnd : ks.Nodup) (hb : b ∈ ks) :
    (ks.map (fun k => if b = k then c else 0)).sum = c := by
  induction ks with
  | nil => simp at hb
  | cons k ks ih =>
    rcases List.mem_cons.mp hb with rfl | hbk
    · have hnotin : b ∉ ks := (List.nodup_cons.mp hnd).1
      simp [sum_map_ite_zero ks b c hnotin]
    · have hne : b ≠ k := by
        rintro rfl
        exact (List.nodup_cons.mp hnd).1 hbk
      simp [hne, ih (List.nodup_cons.mp hnd).2 hbk]

/-- Splitting a list into the fibers of a key function, one fiber per
distinct key value, is a permutation of the list — the structure both
levels of the bronze ingestion loop share. -/
theorem fibers_perm {α β : Type} [DecidableEq α] [DecidableEq β]
    (l : List α) (key : α → β) :
    ((uniques (l.map key)).flatMap (fun k => l.filter (fun x => key x = k)))
      |>.Perm l := by
  rw [List.perm_iff_count]
  intro a
  rw [count_flatMap_eq]
  have hcongr : (uniques (l.map key)).map
        (fun k => (l.filter (fun x => key x = k)).count a)
      = (uniques (l.map key)).map
        (fun k => if key a = k then l.count a else 0) :=
    List.map_congr_left (fun k _ => count_filter_key l key k a)
  rw [hcongr]
  by_cases h : a ∈ l
  · exact sum_map_ite_single _ _ _ (uniques_nodup _)
      ((uniques_mem _ _).mpr (List.mem_map_of_mem key h))
  · rw [List.count_eq_zero.mpr h]
    simp

theorem flatten_flatMap {α β : Type} (ks : List β) (f : β → List (List α)) :
    (ks.flatMap f).flatten = ks.flatMap (fun k => (f k).flatten) := by
  induction ks with
  | nil => rfl
  | cons k ks ih => simp [List.flatMap_cons, List.flatten_append, ih]

theorem perm_flatten {α : Type} {l1 l2 : List (List α)}
    (h : List.Perm l1 l2) : List.Perm l1.flatten l2.flatten := by
  induction h with
  | nil => exact List.Perm.refl _
  | cons x _ ih =>
    simp only [List.flatten_cons]
    exact ih.append_left x
  | swap x y l =>
    simp only [List.flatten_cons, ← List.append_assoc]
    exact List.perm_append_comm.append_right _
  | trans _ _ ih1 ih2 => exact ih1.trans ih2

theorem writeBronze_content_eq (d : List PriceRow) :
    ((writeBronze d).map Prod.snd).flatten
      = (uniques (d.map (fun r => r.ticker))).flatMap (fun t =>
          (uniques ((d.filter (fun r => r.ticker = t)).map
              (fun r => r.date.year))).flatMap
            (fun y => (d.filter (fun r => r.ticker = t)).filter
              (fun r => r.date.year = y))) := by
  simp only [writeBronze, List.map_flatMap, List.map_map]
  rw [flatten_flatMap]
  simp only [← List.flatMap_def, Function.comp_def]

/-- The bronze store written by the ingestion loop holds exactly the
rows of the input table, partitioned: the concatenation of all
partition contents is a permutation of `tech_dt`. -/
theorem writeBronze_rows_perm (tech_dt : List PriceRow) :
    List.Perm ((writeBronze tech_dt).map Prod.snd).flatten tech_dt := by
  rw [writeBronze_content_eq]
  exact (List.Perm.flatMap_left _ (fun t _ => fibers_perm _ _)).trans
    (fibers_perm tech_dt _)

/-- One ticker, one row in each of two years: a store of two
partitions, which glob may enumerate in either order. -/
def c6rows : List PriceRow :=
  [⟨"T", ⟨2020, 1⟩, 1⟩, ⟨"T", ⟨2021, 1⟩, 2⟩]

/-- The same partitions the loop writes for `c6rows`, enumerated in the
reversed order — a legal output of the unsorted recursive glob. -/
def c6enumRev : BronzeStore :=
  [(("T", 2021), [⟨"T", ⟨2021, 1⟩, 2⟩]), (("T", 2020), [⟨"T", ⟨2020, 1⟩, 1⟩])]

/-- C6 counterexample: when glob enumerates the 2021 partition before
the 2020 one (glob's order is unspecified, and the read applies no date
sort), `read_all` returns the 2021 row before the 2020 row of the same
ticker: the same rows come back, but not sorted by (symbol, date). -/
theorem C6_counterexample :
    List.Perm c6enumRev (writeBronze c6rows)
    ∧ readAll c6enumRev = [⟨"T", ⟨2021, 1⟩, 2⟩, ⟨"T", ⟨2020, 1⟩, 1⟩]
    ∧ ¬ (readAll c6enumRev).Sorted byTickerDate := by
  refine ⟨by decide, by decide, ?_⟩
  intro h
  rw [(by decide : readAll c6enumRev
    = [⟨"T", ⟨2021, 1⟩, 2⟩, ⟨"T", ⟨2020, 1⟩, 1⟩])] at h
  have h2 := List.rel_of_sorted_cons h ⟨"T", ⟨2020, 1⟩, 1⟩ (by simp)
  exact absurd h2 (by decide)

/-- C6 as amended: for every written set of PriceRows and every order
in which glob enumerates the resulting partitions, `read_all` returns
exactly the written rows (round-trip of content, as a permutation) and
the result is sorted by ticker (the set_index); but no date ordering
within a ticker is guaranteed — that is refuted by the companion
counterexample. -/
theorem C6_roundtrip_content (tech_dt : List PriceRow) (enum : BronzeStore)
    (henum : List.Perm enum (writeBronze tech_dt)) :
    List.Perm (readAll enum) tech_dt ∧ (readAll enum).Sorted tickerLE := by
  constructor
  · exact (List.perm_insertionSort tickerLE _).trans
      ((perm_flatten (henum.map Prod.snd)).trans
        (writeBronze_rows_perm tech_dt))
  · exact List.sorted_insertionSort tickerLE _

/-- Witness for the amended C6 at the two-partition store, enumerated
in written order. -/
theorem C6_roundtrip_content_witness :
    List.Perm (readAll (writeBronze c6rows)) c6rows
    ∧ (readAll (writeBronze c6rows)).Sorted tickerLE :=
  C6_roundtrip_content c6rows (writeBronze c6rows) (List.Perm.refl _)

/-! ## C8: the batch fetch response and its stack normalization. -/

/-- A normalized price observation as
`stack(future_stack=True).reset_index()` produces it: one row per
(date, ticker) cell of the wide frame, with NaN (`none`) where the
provider had no value. -/
structure NRow where
  ticker : String
  date : PDate
  close : Option ℚ
deriving DecidableEq, Repr

/-- The wide frame `yf.download(tickers, start, end)` returns: one
column block per requested ticker — including tickers the provider does
not recognize, whose block is all NaN (yfinance records the failed
download as a warning and does not raise) — indexed by the union of
trading dates.  `close` gives the Close cell, `none` for NaN. -/
structure WideFrame where
  dates : List PDate
  tickers : List String
  close : String → PDate → Option ℚ

/-- `tech_raw_dt.stack(future_stack=True).reset_index()`: one row per
(date, ticker) pair of the wide frame; with `future_stack=True` the
all-NaN rows are kept, not dropped. -/
def stackReset (w : WideFrame) : List NRow :=
  w.dates.flatMap (fun d => w.tickers.map (fun t => ⟨t, d, w.close t d⟩))

/-- Row comparison for `sort_values(['Ticker', 'Date'])`. -/
def nrowLE (a b : NRow) : Prop :=
  natsOf a.ticker < natsOf b.ticker
    ∨ (natsOf a.ticker = natsOf b.ticker ∧ a.date.leb b.date = true)

instance : DecidableRel nrowLE := fun a b =>
  inferInstanceAs (Decidable (natsOf a.ticker < natsOf b.ticker
    ∨ (natsOf a.ticker = natsOf b.ticker ∧ a.date.leb b.date = true)))

/-- Cell `tech_dt`: the stacked frame sorted by (Ticker, Date). -/
def tech_dtOf (w : WideFrame) : List NRow :=
  List.insertionSort nrowLE (stackReset w)

/-- Five requested tickers, one of which the provider does not
recognize (all its cells NaN), over two trading dates. -/
def c8frame : WideFrame :=
  { dates := [⟨2024, 1⟩, ⟨2024, 2⟩],
    tickers := ["AAPL", "AMD", "MSFT", "ORCL", "ZZZZ"],
    close := fun t _ => if t = "ZZZZ" then none else some 1 }

/-- C8 counterexample: with one unrecognized symbol among five, the
normalized table still contains rows for all five symbols — ten rows,
the unrecognized symbol's rows carrying NaN closes — rather than rows
for exactly the four valid symbols: `future_stack=True` keeps NaN rows,
so the unrecognized symbol is not excluded from the results. -/
theorem C8_counterexample :
    "ZZZZ" ∈ (tech_dtOf c8frame).map (fun r => r.ticker)
    ∧ (tech_dtOf c8frame).length = 10
    ∧ (∀ r ∈ tech_dtOf c8frame, r.ticker = "ZZZZ" → r.close = none) := by
  decide

theorem stackReset_inner_length (ds : List PDate) (ts : List String)
    (f : String → PDate → Option ℚ) :
    (ds.flatMap (fun d => ts.map (fun t => (⟨t, d, f t d⟩ : NRow)))).length
      = ds.length * ts.length := by
  induction ds with
  | nil => simp
  | cons d ds ih => simp [ih, Nat.succ_mul, Nat.add_comm]

/-- C8 as amended: the normalization never raises and never drops a
requested symbol — the stacked table has exactly one row per (date,
ticker) pair, each requested symbol (recognized or not, with or without
data) contributes one row per date whose close is the provider's cell
(NaN for missing), every row comes from such a pair, and the final sort
only permutes the rows. -/
theorem C8_stack_keeps_all_symbols (w : WideFrame) :
    (stackReset w).length = w.dates.length * w.tickers.length
    ∧ (∀ t d, t ∈ w.tickers → d ∈ w.dates →
        (⟨t, d, w.close t d⟩ : NRow) ∈ stackReset w)
    ∧ (∀ r ∈ stackReset w, r.ticker ∈ w.tickers ∧ r.date ∈ w.dates
        ∧ r.close = w.close r.ticker r.date)
    ∧ List.Perm (tech_dtOf w) (stackReset w) := by
  refine ⟨stackReset_inner_length w.dates w.tickers w.close, ?_, ?_,
    List.perm_insertionSort nrowLE _⟩
  · intro t d ht hd
    exact List.mem_flatMap.mpr ⟨d, hd, List.mem_map.mpr ⟨t, ht, rfl⟩⟩
  · intro r hr
    rcases List.mem_flatMap.mp hr with ⟨d, hd, hmem⟩
    rcases List.mem_map.mp hmem with ⟨t, ht, rfl⟩
    exact ⟨ht, hd, rfl⟩

/-- Witness for the amended C8: in the five-ticker frame, the
unrecognized symbol contributes a row with a NaN close on the first
date. -/
theorem C8_stack_keeps_all_symbols_witness :
    "ZZZZ" ∈ c8frame.tickers ∧ (⟨2024, 1⟩ : PDate) ∈ c8frame.dates
    ∧ (⟨"ZZZZ", ⟨2024, 1⟩, none⟩ : NRow) ∈ stackReset c8frame :=
  ⟨by decide, by decide,
    (C8_stack_keeps_all_symbols c8frame).2.1 "ZZZZ" ⟨2024, 1⟩
      (by decide) (by decide)⟩

/-! ## C7: the ingestion controller's failure isolation.  The
`DataManager` class the notebook drives lives in
`./05_src/data_manager.py`, which is not part of this repository
snapshot — the notebook only imports and calls it — so the controller
loop is modelled from the specification (§4.3 step 5, §7). -/

/-- Modelled from the spec: the outcome of fetching one symbol's
missing periods through the Price Fetcher — either the symbol's rows,
or a recorded failure (a FetchError that exhausted its bounded retries,
or a StorageWriteError on its partition write). -/
inductive FetchOutcome where
  | ok (rows : List PriceRow) : FetchOutcome
  | fail (message : String) : FetchOutcome

/-- Whether a per-symbol fetch outcome succeeded. -/
def FetchOutcome.isOk : FetchOutcome → Bool
  | FetchOutcome.ok _ => true
  | FetchOutcome.fail _ => false

/-- Modelled from the spec: the run summary `download_all` accumulates —
the symbols processed successfully and the recorded failures. -/
structure RunSummary where
  succeeded : List String
  failed : List String
deriving DecidableEq, Repr

/-- Modelled from the spec: the per-symbol loop of `download_all` —
each symbol's fetch failure is caught, logged, and recorded in the
summary, and the loop continues with the remaining symbols. -/
def downloadAllLoop (fetch : String → FetchOutcome) :
    List String → RunSummary
  | [] => ⟨[], []⟩
  | s :: ss =>
      let rest := downloadAllLoop fetch ss
      match fetch s with
      | FetchOutcome.ok _ => ⟨s :: rest.succeeded, rest.failed⟩
      | FetchOutcome.fail _ => ⟨rest.succeeded, s :: rest.failed⟩

/-- Modelled from the spec: configuration validation precedes the loop
(a ConfigurationError — missing symbol universe or storage root — is
fatal at startup with no partial execution); every later failure is
per-symbol. -/
def download_all (config : Option (List String))
    (fetch : String → FetchOutcome) : Except String RunSummary :=
  match config with
  | none => Except.error "ConfigurationError"
  | some symbols => Except.ok (downloadAllLoop fetch symbols)

/-- C7: per-symbol failure isolation — the loop processes every symbol
whatever the other symbols' outcomes: the successes are exactly the
symbols whose fetch succeeded and the recorded failures exactly those
whose fetch failed (one bad symbol never aborts the rest), while a
missing configuration aborts the whole run before any symbol is
processed. -/
theorem C7_per_symbol_failure_isolation (symbols : List String)
    (fetch : String → FetchOutcome) :
    downloadAllLoop fetch symbols
      = ⟨symbols.filter (fun s => (fetch s).isOk),
         symbols.filter (fun s => !(fetch s).isOk)⟩
    ∧ download_all (some symbols) fetch
        = Except.ok (downloadAllLoop fetch symbols)
    ∧ download_all none fetch = Except.error "ConfigurationError" := by
  refine ⟨?_, rfl, rfl⟩
  induction symbols with
  | nil => rfl
  | cons s ss ih =>
    cases hfs : fetch s <;>
      simp [downloadAllLoop, List.filter_cons, hfs, FetchOutcome.isOk, ih]

/-! ## C9: the partition key-to-path mapping. -/

/-- The decimal digit characters of a natural number, most significant
first — the characters python's f-string interpolation `f"{yr}"`
produces for a year. -/
def yearChars (y : Nat) : List Char :=
  if y = 0 then ['0'] else ((Nat.digits 10 y).map Nat.digitChar).reverse

/-- `yr_path = os.path.join(PRICE_DATA, ticker, f"{ticker}_{yr}")` for
a relative ticker component: the three components joined with '/'.
The mapping is a function of the key, so each key has exactly one
location (determinism); the theorem below shows distinct keys map to
distinct locations. -/
def yr_path (priceData ticker : String) (yr : Nat) : String :=
  ⟨priceData.data ++ '/' :: ticker.data ++ '/' :: ticker.data
    ++ '_' :: yearChars yr⟩

theorem digitChar_inj_lt10 :
    ∀ a, a < 10 → ∀ b, b < 10 → Nat.digitChar a = Nat.digitChar b →
      a = b := by
  decide

theorem digitChar_isDigit : ∀ a, a < 10 → (Nat.digitChar a).isDigit = true := by
  decide

theorem yearChars_digit (y : Nat) : ∀ c ∈ yearChars y, c.isDigit = true := by
  intro c hc
  unfold yearChars at hc
  by_cases hy : y = 0
  · simp [hy] at hc
    subst hc
    decide
  · simp only [hy, if_false, List.mem_reverse, List.mem_map] at hc
    rcases hc with ⟨d, hd, rfl⟩
    exact digitChar_isDigit d (Nat.digits_lt_base (by norm_num) hd)

theorem map_digitChar_inj :
    ∀ (l1 l2 : List Nat), (∀ d ∈ l1, d < 10) → (∀ d ∈ l2, d < 10) →
      l1.map Nat.digitChar = l2.map Nat.digitChar → l1 = l2
  | [], [], _, _, _ => rfl
  | [], _ :: _, _, _, h => by simp at h
  | _ :: _, [], _, _, h => by simp at h
  | a :: l1, b :: l2, h1, h2, h => by
    simp only [List.map_cons, List.cons.injEq] at h
    have hab := digitChar_inj_lt10 a (h1 a (by simp)) b (h2 b (by simp)) h.1
    subst hab
    rw [map_digitChar_inj l1 l2 (fun d hd => h1 d (by simp [hd]))
      (fun d hd => h2 d (by simp [hd])) h.2]

theorem yearChars_inj (y1 y2 : Nat) (h : yearChars y1 = yearChars y2) :
    y1 = y2 := by
  have hzero : ∀ y : Nat, y ≠ 0 →
      ((Nat.digits 10 y).map Nat.digitChar).reverse = ['0'] → False := by
    intro y hy hrev
    have hmap : (Nat.digits 10 y).map Nat.digitChar = ['0'] := by
      have := congrArg List.reverse hrev
      simpa using this
    have hdig : Nat.digits 10 y = [0] :=
      map_digitChar_inj (Nat.digits 10 y) [0]
        (fun d hd => Nat.digits_lt_base (by norm_num) hd)
        (by intro d hd; simp at hd; omega)
        (by rw [hmap]; rfl)
    have hof := Nat.ofDigits_digits 10 y
    rw [hdig] at hof
    simp [Nat.ofDigits] at hof
    exact hy hof.symm
  unfold yearChars at h
  by_cases h1 : y1 = 0 <;> by_cases h2 : y2 = 0
  · rw [h1, h2]
  · rw [if_pos h1, if_neg h2] at h
    exact absurd (hzero y2 h2 h.symm) (fun hfalse => hfalse)
  · rw [if_neg h1, if_pos h2] at h
    exact absurd (hzero y1 h1 h) (fun hfalse => hfalse)
  · rw [if_neg h1, if_neg h2] at h
    have hmap : (Nat.digits 10 y1).map Nat.digitChar
        = (Nat.digits 10 y2).map Nat.digitChar := by
      have := congrArg List.reverse h
      simpa using this
    have hdig := map_digitChar_inj _ _
      (fun d hd => Nat.digits_lt_base (by norm_num) hd)
      (fun d hd => Nat.digits_lt_base (by norm_num) hd) hmap
    have := congrArg (Nat.ofDigits 10) hdig
    rwa [Nat.ofDigits_digits, Nat.ofDigits_digits] at this

theorem takeWhile_digits_eq (s rest : List Char)
    (hs : ∀ c ∈ s, c.isDigit = true) :
    (s ++ '_' :: rest).takeWhile (fun c => c.isDigit) = s := by
  induction s with
  | nil =>
    simp only [List.nil_append, List.takeWhile_cons]
    rw [(by decide : ('_').isDigit = false)]
    rfl
  | cons c cs ih =>
    have hc : c.isDigit = true := hs c (by simp)
    simp [List.takeWhile_cons, hc, ih (fun x hx => hs x (by simp [hx]))]

theorem path_suffix_inj (t1 t2 s1 s2 : List Char)
    (hs1 : ∀ c ∈ s1, c.isDigit = true) (hs2 : ∀ c ∈ s2, c.isDigit = true)
    (h : (t1 ++ '/' :: t1) ++ '_' :: s1 = (t2 ++ '/' :: t2) ++ '_' :: s2) :
    t1 = t2 ∧ s1 = s2 := by
  have key : ∀ (a s : List Char),
      ((a ++ '_' :: s).reverse) = s.reverse ++ '_' :: a.reverse := by
    intro a s
    simp
  have h1 := congrArg List.reverse h
  rw [key (t1 ++ '/' :: t1) s1, key (t2 ++ '/' :: t2) s2] at h1
  have hsrev : s1.reverse = s2.reverse := by
    have h2 := congrArg (List.takeWhile (fun c => c.isDigit)) h1
    rwa [takeWhile_digits_eq _ _ (fun c hc => hs1 c (List.mem_reverse.mp hc)),
      takeWhile_digits_eq _ _ (fun c hc => hs2 c (List.mem_reverse.mp hc))]
      at h2
  have hseq : s1 = s2 := by
    have := congrArg List.reverse hsrev
    simpa using this
  subst hseq
  have hlen : t1.length = t2.length := by
    have := congrArg List.length h
    simp only [List.length_append, List.length_cons] at this
    omega
  have hlenA : (t1 ++ '/' :: t1).length = (t2 ++ '/' :: t2).length := by
    simp [hlen]
  have hfst := (List.append_inj h hlenA).1
  exact ⟨(List.append_inj hfst hlen).1, rfl⟩

/-- C9: the key-to-path mapping `(ticker, yr) -> PRICE_DATA/ticker/
ticker_yr` is collision-free — distinct keys always map to distinct
paths, for any ticker strings and any years, because the year suffix
consists of digits only and the layout of the separators pins down
every component. -/
theorem C9_partition_path_injective (priceData t1 : String) (y1 : Nat)
    (t2 : String) (y2 : Nat) (hne : t1 ≠ t2 ∨ y1 ≠ y2) :
    yr_path priceData t1 y1 ≠ yr_path priceData t2 y2 := by
  intro h
  have hdata := congrArg String.data h
  simp only [yr_path] at hdata
  have reassoc : ∀ (p t z : List Char),
      ((p ++ '/' :: t) ++ '/' :: t) ++ '_' :: z
        = p ++ '/' :: ((t ++ '/' :: t) ++ '_' :: z) := by
    intro p t z
    simp
  rw [reassoc, reassoc] at hdata
  have hcut : (t1.data ++ '/' :: t1.data) ++ '_' :: yearChars y1
      = (t2.data ++ '/' :: t2.data) ++ '_' :: yearChars y2 := by
    have hc := List.append_cancel_left hdata
    exact (List.cons.inj hc).2
  obtain ⟨ht, hy⟩ := path_suffix_inj _ _ _ _
    (yearChars_digit y1) (yearChars_digit y2) hcut
  have ht2 : t1 = t2 := by
    rcases t1 with ⟨d1⟩
    rcases t2 with ⟨d2⟩
    simp only at ht
    rw [ht]
  have hy2 : y1 = y2 := yearChars_inj _ _ hy
  rcases hne with hne | hne
  · exact hne ht2
  · exact hne hy2

/-- Witness for C9: two concrete keys differing only in the year map to
distinct physical locations. -/
theorem C9_partition_path_injective_witness :
    (("AAPL" : String) ≠ "AAPL" ∨ (2020 : Nat) ≠ 2021)
    ∧ yr_path "price_data" "AAPL" 2020 ≠ yr_path "price_data" "AAPL" 2021 :=
  ⟨Or.inr (by decide),
    C9_partition_path_injective "price_data" "AAPL" 2020 "AAPL" 2021
      (Or.inr (by decide))⟩

end Production
